import Mathlib

set_option maxHeartbeats 1000000

/-!
Verification development for the Viper-Browser session, closed-tab and bookmark
components. Definitions are shallow embeddings of the C++ sources
(BrowserApplication.cpp, BrowserTabWidget.h, BookmarkManager.h); components whose
implementation files are not among the sources are modelled from the written
specification, as marked on each definition.
-/

namespace ViperBrowser

/-! ## Closed-tab ring (BrowserTabWidget) -/

/-- ClosedTabInfo from BrowserTabWidget.h: index of the tab in the tab bar, last
URL loaded, serialized page history, and the pinned flag. -/
structure ClosedTabInfo where
  index : Int
  url : String
  pageHistory : List Nat
  pinned : Bool
deriving Repr, DecidableEq

/-- Capacity of the closed-tab record, from the comment on
BrowserTabWidget.m_closedTabs: a record of up to 30 closed tabs. -/
def closedTabCapacity : Nat := 30

namespace ClosedTabRing

/-- Modelled from the spec: BrowserTabWidget.cpp is not among the sources.
Push appends the new entry; if the size then exceeds 30, the oldest entry is
evicted. Newest entries sit at the back of the list, oldest at the front. -/
def push (ring : List ClosedTabInfo) (info : ClosedTabInfo) : List ClosedTabInfo :=
  if closedTabCapacity < (ring ++ [info]).length then
    (ring ++ [info]).tail
  else
    ring ++ [info]

/-- Modelled from the spec: BrowserTabWidget.cpp is not among the sources.
Pop removes and returns the most recently closed entry together with the
remaining ring, or none when the ring is empty. -/
def pop (ring : List ClosedTabInfo) : Option (ClosedTabInfo × List ClosedTabInfo) :=
  match ring.getLast? with
  | none => none
  | some info => some (info, ring.dropLast)

/-- Modelled from the spec: canReopenClosedTab (declared in BrowserTabWidget.h)
reports whether at least one closed tab can be reopened. -/
def canReopen (ring : List ClosedTabInfo) : Bool :=
  !ring.isEmpty

end ClosedTabRing

/-! ## Tab lookup (BrowserTabWidget.getWebWidget) -/

/-- Modelled from the spec: BrowserTabWidget.cpp is not among the sources. Per the
header documentation, getWebWidget returns the web view at the given tab index,
or null when tabIndex is invalid. Tabs are the ordered list of web widgets,
each widget modelled as a numeric identifier. -/
def getWebWidget (tabs : List Nat) (tabIndex : Int) : Option Nat :=
  if h : 0 ≤ tabIndex ∧ tabIndex.toNat < tabs.length then
    some (tabs.get ⟨tabIndex.toNat, h.2⟩)
  else
    none

/-! ## Session-save triggers (BrowserApplication.cpp) -/

/-- StartupMode setting used by BrowserApplication. -/
inductive StartupMode where
  | LoadHomePage
  | LoadBlankPage
  | RestoreSession
deriving Repr, DecidableEq

/-- MainWindow as observed by BrowserApplication: the guarded pointer may be
null, and the window is private or not. -/
structure WindowRef where
  isNull : Bool
  isPrivate : Bool
deriving Repr, DecidableEq

/-- State of BrowserApplication relevant to session saving: the startup mode,
the m_browserWindows list, and the sessionSaved flag. The flag models
SessionManager.alreadySaved(), modelled from the spec (SessionManager sources
are absent): it reports whether a session snapshot has already been persisted
during this run. -/
structure BrowserState where
  mode : StartupMode
  browserWindows : List WindowRef
  sessionSaved : Bool
deriving Repr, DecidableEq

/-- Window-collection loop shared by beforeBrowserQuit and maybeSaveSession
(BrowserApplication.cpp lines 331-340 and 350-358): keeps every window whose
pointer is not null and that is not private. -/
def collectSavableWindows (ws : List WindowRef) : List WindowRef :=
  ws.filter (fun w => !w.isNull && !w.isPrivate)

/-- Embedding of BrowserApplication.beforeBrowserQuit (lines 325-344): the list
of windows it passes to SessionManager.saveState, or none when it does not
call saveState. It returns early when the startup mode is not RestoreSession
and the session was already saved; otherwise it saves the collected windows
unless none remain. -/
def beforeBrowserQuitSaveArg (s : BrowserState) : Option (List WindowRef) :=
  if s.mode ≠ StartupMode.RestoreSession ∧ s.sessionSaved then
    none
  else if (collectSavableWindows s.browserWindows).isEmpty then
    none
  else
    some (collectSavableWindows s.browserWindows)

/-- Embedding of BrowserApplication.maybeSaveSession (lines 346-366): the list
of windows it passes to SessionManager.saveState, or none when it does not
call saveState. It saves exactly when one savable window remains, with no
check of alreadySaved. -/
def maybeSaveSessionSaveArg (s : BrowserState) : Option (List WindowRef) :=
  if (collectSavableWindows s.browserWindows).isEmpty ∨
      (collectSavableWindows s.browserWindows).length > 1 then
    none
  else
    some (collectSavableWindows s.browserWindows)

/-! ## Session snapshot serialization (SessionManager) -/

/-- State of one tab inside a session snapshot: URL, serialized page history,
and the pinned flag, per the SessionState data model. -/
structure TabState where
  url : String
  pageHistory : List Nat
  pinned : Bool
deriving Repr, DecidableEq

/-- State of one window inside a session snapshot: the ordered tab list and the
active-tab index. -/
structure WindowState where
  tabs : List TabState
  activeTab : Nat
deriving Repr, DecidableEq

/-- Tokens of the serialized session snapshot written to durable storage. -/
inductive SessionToken where
  | count (n : Nat)
  | tabEntry (url : String) (pageHistory : List Nat) (pinned : Bool)
  | activeTab (n : Nat)
deriving Repr, DecidableEq

/-- Modelled from the spec: SessionManager sources are absent. Serialization of
one window: its tab count, then one entry per tab in order, then the
active-tab index. -/
def encodeWindow (w : WindowState) : List SessionToken :=
  SessionToken.count w.tabs.length ::
    (w.tabs.map (fun t => SessionToken.tabEntry t.url t.pageHistory t.pinned) ++
      [SessionToken.activeTab w.activeTab])

/-- Modelled from the spec: SessionManager.saveState snapshots the given
windows (already filtered to non-private ones by the caller) to durable
storage, overwriting any previous snapshot: the window count followed by each
window serialized in order. -/
def saveState (ws : List WindowState) : List SessionToken :=
  SessionToken.count ws.length :: (ws.map encodeWindow).flatten

/-- Decoder for a run of tab entries of known count, returning the tabs and the
unread remainder of the snapshot. -/
def decodeTabs : Nat → List SessionToken → Option (List TabState × List SessionToken)
  | 0, ts => some ([], ts)
  | n + 1, SessionToken.tabEntry u h p :: ts =>
      match decodeTabs n ts with
      | some (tabs, rest) => some (⟨u, h, p⟩ :: tabs, rest)
      | none => none
  | _ + 1, _ => none

/-- Decoder for one serialized window. -/
def decodeWindow : List SessionToken → Option (WindowState × List SessionToken)
  | SessionToken.count n :: ts =>
      match decodeTabs n ts with
      | some (tabs, SessionToken.activeTab a :: rest) => some (⟨tabs, a⟩, rest)
      | _ => none
  | _ => none

/-- Decoder for a run of serialized windows of known count. -/
def decodeWindows : Nat → List SessionToken → Option (List WindowState × List SessionToken)
  | 0, ts => some ([], ts)
  | n + 1, ts =>
      match decodeWindow ts with
      | some (w, rest) =>
          match decodeWindows n rest with
          | some (wins, r2) => some (w :: wins, r2)
          | none => none
      | none => none

/-- Modelled from the spec: SessionManager.restoreSession reconstructs the
windows and their tabs from the last snapshot, preserving order and pinned
flags; none on a malformed snapshot. -/
def restoreSession (snapshot : List SessionToken) : Option (List WindowState) :=
  match snapshot with
  | SessionToken.count n :: ts =>
      match decodeWindows n ts with
      | some (wins, []) => some wins
      | _ => none
  | _ => none

/-! ## Bookmark tree (BookmarkManager)

BookmarkManager.cpp is not among the sources; the tree, the storage tables and
every operation below are modelled from the spec, following its data model:
nodes carry a unique integer id, a type (folder or bookmark), a name, a URL,
and an ordered child list. -/

/-- Modelled from the spec: a bookmark node. Folders have isFolder true and may
carry children; bookmarks carry a URL and no children. -/
inductive BNode where
  | mk (id : Nat) (isFolder : Bool) (name : String) (url : String) (children : List BNode)

/-- Identifier of a node. -/
def BNode.id : BNode → Nat
  | .mk i _ _ _ _ => i

/-- Folder flag of a node. -/
def BNode.isFolder : BNode → Bool
  | .mk _ fo _ _ _ => fo

/-- Display name of a node. -/
def BNode.name : BNode → String
  | .mk _ _ n _ _ => n

/-- URL of a node (empty for folders). -/
def BNode.url : BNode → String
  | .mk _ _ _ u _ => u

/-- Ordered child list of a node. -/
def BNode.children : BNode → List BNode
  | .mk _ _ _ _ cs => cs

mutual

/-- Identifiers of every node of the subtree, in depth-first order. -/
def subtreeIds : BNode → List Nat
  | .mk i _ _ _ cs => i :: subtreeIdsL cs

/-- Identifiers of every node of a forest, in depth-first order. -/
def subtreeIdsL : List BNode → List Nat
  | [] => []
  | c :: cs => subtreeIds c ++ subtreeIdsL cs

end

mutual

/-- Every node of the subtree, the subtree root included, in depth-first
order. -/
def allNodes : BNode → List BNode
  | .mk i fo n u cs => BNode.mk i fo n u cs :: allNodesL cs

/-- Every node of a forest, in depth-first order. -/
def allNodesL : List BNode → List BNode
  | [] => []
  | c :: cs => allNodes c ++ allNodesL cs

end

mutual

/-- Depth-first lookup of the node carrying the given id. -/
def findNode (fid : Nat) : BNode → Option BNode
  | .mk i fo n u cs => if i = fid then some (BNode.mk i fo n u cs) else findNodeL fid cs

/-- Depth-first lookup of the node carrying the given id in a forest. -/
def findNodeL (fid : Nat) : List BNode → Option BNode
  | [] => none
  | c :: cs =>
      match findNode fid c with
      | some n => some n
      | none => findNodeL fid cs

end

mutual

/-- Removes from every child list the node carrying the given id, together
with its whole subtree. -/
def removeNode (fid : Nat) : BNode → BNode
  | .mk i fo n u cs => BNode.mk i fo n u (removeNodeL fid cs)

/-- Removes from a forest the node carrying the given id, together with its
whole subtree. -/
def removeNodeL (fid : Nat) : List BNode → List BNode
  | [] => []
  | c :: cs => if c.id = fid then removeNodeL fid cs else removeNode fid c :: removeNodeL fid cs

end

mutual

/-- Rewrites the child list of the node carrying the given id with f, leaving
the rest of the tree unchanged. Recursion stops at the first matching node
along each path. -/
def updateChildren (pid : Nat) (f : List BNode → List BNode) : BNode → BNode
  | .mk i fo n u cs =>
      if i = pid then BNode.mk i fo n u (f cs) else BNode.mk i fo n u (updateChildrenL pid f cs)

/-- Rewrites, inside a forest, the child list of the node carrying the given
id with f. -/
def updateChildrenL (pid : Nat) (f : List BNode → List BNode) : List BNode → List BNode
  | [] => []
  | c :: cs => updateChildren pid f c :: updateChildrenL pid f cs

end

/-- Identifiers of the folder nodes of the tree. -/
def folderIds (t : BNode) : List Nat :=
  ((allNodes t).filter (fun n => n.isFolder)).map BNode.id

/-- Row of the durable bookmark store, per the spec's storage schema: node id,
parent id, node type, name and URL. The significant child order of the
persisted data is tracked by the tree-shaped projection nodeRows. -/
structure StorageRow where
  id : Nat
  parentId : Nat
  isFolder : Bool
  name : String
  url : String
deriving Repr, DecidableEq

/-- Storage row describing a node as a child of the given parent. -/
def rowOf (pid : Nat) (c : BNode) : StorageRow :=
  { id := c.id, parentId := pid, isFolder := c.isFolder, name := c.name, url := c.url }

mutual

/-- Rows of durable storage describing every non-root node of the subtree. -/
def nodeRows : BNode → List StorageRow
  | .mk i _ _ _ cs => childRows i cs

/-- Rows of durable storage describing a forest of children of the given
parent. -/
def childRows (pid : Nat) : List BNode → List StorageRow
  | [] => []
  | c :: cs => rowOf pid c :: (nodeRows c ++ childRows pid cs)

end

/-- In-memory tree paired with the mirrored durable storage rows. -/
structure BookmarkStore where
  tree : BNode
  storage : List StorageRow

/-- Insertion of a child at a position: valid positions insert there, any
other position (the default -1 included) appends, per the spec's addBookmark
contract. -/
def insertChildAt (pos : Int) (c : BNode) (cs : List BNode) : List BNode :=
  if 0 ≤ pos ∧ pos.toNat ≤ cs.length then cs.insertIdx pos.toNat c else cs ++ [c]

/-- Reordering of a child list: the entry carrying the given id is detached
and reinserted at the given position (clamped to the list), per the spec's
setBookmarkPosition contract. -/
def moveChild (itemId : Nat) (pos : Nat) (cs : List BNode) : List BNode :=
  match cs.findIdx? (fun c => c.id = itemId) with
  | none => cs
  | some i =>
      match cs[i]? with
      | none => cs
      | some c => (cs.eraseIdx i).insertIdx (min pos (cs.eraseIdx i).length) c

/-- Modelled from the spec: BookmarkManager.addFolder creates a folder with a
fresh id under the given parent, persists it, and returns the new node; it
fails when the parent folder is absent or the id is not fresh. The new row is
written to storage in the same step. -/
def addFolder (st : BookmarkStore) (pid : Nat) (nm : String) (nid : Nat) :
    Option (BookmarkStore × BNode) :=
  if pid ∈ folderIds st.tree ∧ nid ∉ subtreeIds st.tree then
    some ({ tree := updateChildren pid (fun cs => cs ++ [BNode.mk nid true nm "" []]) st.tree,
            storage := st.storage ++ [{ id := nid, parentId := pid, isFolder := true,
                                        name := nm, url := "" }] },
          BNode.mk nid true nm "" [])
  else
    none

/-- Modelled from the spec: BookmarkManager.addBookmark appends, or inserts at
the given position, a bookmark within the folder's child list, writing its
row to storage in the same step. -/
def addBookmark (st : BookmarkStore) (pid : Nat) (nm burl : String) (bid : Nat) (pos : Int) :
    Option BookmarkStore :=
  if pid ∈ folderIds st.tree ∧ bid ∉ subtreeIds st.tree then
    some { tree := updateChildren pid (insertChildAt pos (BNode.mk bid false nm burl [])) st.tree,
           storage := st.storage ++ [{ id := bid, parentId := pid, isFolder := false,
                                       name := nm, url := burl }] }
  else
    none

/-- Modelled from the spec: BookmarkManager.removeBookmark detaches and
deletes the bookmark node, deleting its row from storage in the same step.
The root folder is never a bookmark and is not removable. -/
def removeBookmark (st : BookmarkStore) (bid : Nat) : Option BookmarkStore :=
  if bid = st.tree.id then
    none
  else
    match findNode bid st.tree with
    | none => none
    | some n =>
        if n.isFolder then
          none
        else
          some { tree := removeNode bid st.tree,
                 storage := st.storage.filter (fun r => r.id ≠ bid) }

/-- Modelled from the spec: BookmarkManager.removeFolder recursively removes
the folder and all its descendants from the tree and from storage. The root
folder is not removable. -/
def removeFolder (st : BookmarkStore) (fid : Nat) : Option BookmarkStore :=
  if fid = st.tree.id then
    none
  else
    match findNode fid st.tree with
    | none => none
    | some n =>
        if n.isFolder then
          some { tree := removeNode fid st.tree,
                 storage := st.storage.filter (fun r => decide (r.id ∉ subtreeIds n)) }
        else
          none

/-- Modelled from the spec: BookmarkManager.setBookmarkPosition reorders the
item within the parent's child sequence and persists the new ordering; the
row set of storage is unchanged by a pure reordering. -/
def setBookmarkPosition (st : BookmarkStore) (itemId pid : Nat) (pos : Nat) : BookmarkStore :=
  { tree := updateChildren pid (moveChild itemId pos) st.tree, storage := st.storage }

namespace BookmarkManager

/-- Embedding of BookmarkManager.save (BookmarkManager.h line 111): the body
is empty, values having been saved to the database as soon as they were
changed, so save leaves the store untouched. -/
def save (st : BookmarkStore) : BookmarkStore := st

end BookmarkManager

/-! ## Breadth-first folder lookup (BookmarkManager.findFolder) -/

mutual

/-- Number of nodes of a subtree. -/
def nsize : BNode → Nat
  | .mk _ _ _ _ cs => 1 + nsizeL cs

/-- Number of nodes of a forest. -/
def nsizeL : List BNode → Nat
  | [] => 0
  | c :: cs => nsize c + nsizeL cs

end

/-- Modelled from the spec: BookmarkManager.findFolder performs a
breadth-first search with an explicit queue, dequeuing the front node,
returning it when it is the folder with the looked-up id, and otherwise
enqueuing its children at the back. -/
def bfsFind (fid : Nat) (queue : List BNode) : Option BNode :=
  match queue with
  | [] => none
  | q :: qs => if q.isFolder = true ∧ q.id = fid then some q else bfsFind fid (qs ++ q.children)
termination_by nsizeL queue
decreasing_by
  have happ : ∀ a b : List BNode, nsizeL (a ++ b) = nsizeL a + nsizeL b := by
    intro a b
    induction a with
    | nil => simp [nsizeL]
    | cons x xs ih =>
      simp only [List.cons_append]
      rw [nsizeL, nsizeL, ih]
      omega
  have hchild : nsizeL c.children < nsize c := by
    cases c with
    | mk i2 fo2 n2 u2 cs2 =>
      have hck : (BNode.mk i2 fo2 n2 u2 cs2).children = cs2 := rfl
      rw [hck, nsize]
      omega
  rw [happ, nsizeL]
  omega

/-- Modelled from the spec: BookmarkManager.findFolder searches for the
folder with the given id by a BFS from the root bookmark node, returning
none when it is absent. -/
def findFolder (t : BNode) (fid : Nat) : Option BNode :=
  bfsFind fid [t]

/-- Invariant of the spec's data model: only folders carry children. -/
def WellFormed (t : BNode) : Prop :=
  ∀ n ∈ allNodes t, n.isFolder = false → n.children = []

/-- Write-through correspondence: durable storage holds exactly the rows of
the in-memory tree. -/
def WriteThrough (st : BookmarkStore) : Prop :=
  st.storage.Perm (nodeRows st.tree)

/-- Concrete bookmark tree used by the witnesses: a root folder holding a
News folder (with one bookmark) and one top-level bookmark. -/
def sampleTree : BNode :=
  BNode.mk 0 true "Bookmarks" ""
    [BNode.mk 1 true "News" "" [BNode.mk 2 false "b" "u" []],
     BNode.mk 3 false "x" "y" []]

/-- Concrete store whose storage mirrors the sample tree. -/
def sampleStore : BookmarkStore :=
  { tree := sampleTree, storage := nodeRows sampleTree }

/-! ## Theorems for the session-save triggers -/

/-- Claim C1, as stated, is false on the code: it asserts both save triggers are
gated by alreadySaved, so that once a snapshot is persisted neither trigger
persists again. At the concrete state with startup mode RestoreSession, one
live non-private window, and sessionSaved already true, both triggers still
call saveState. -/
theorem session_save_gating_cex :
    ¬ (∀ s : BrowserState, s.sessionSaved = true →
        beforeBrowserQuitSaveArg s = none ∧ maybeSaveSessionSaveArg s = none) := by
  intro h
  have h2 := h { mode := StartupMode.RestoreSession,
                 browserWindows := [{ isNull := false, isPrivate := false }],
                 sessionSaved := true } rfl
  exact absurd h2.1 (by decide)

/-- Claim C1 (amended): only beforeBrowserQuit consults alreadySaved, and only
when the startup mode is not RestoreSession; in that configuration it does not
persist a second time. maybeSaveSession ignores alreadySaved and saves exactly
when one savable (non-null, non-private) window remains. -/
theorem session_save_gating (s : BrowserState) :
    (s.mode ≠ StartupMode.RestoreSession → s.sessionSaved = true →
      beforeBrowserQuitSaveArg s = none) ∧
    (maybeSaveSessionSaveArg s =
      if (collectSavableWindows s.browserWindows).length = 1 then
        some (collectSavableWindows s.browserWindows)
      else none) := by
  constructor
  · intro hmode hsaved
    simp [beforeBrowserQuitSaveArg, hmode, hsaved]
  · simp only [maybeSaveSessionSaveArg, List.isEmpty_iff_length_eq_zero]
    rcases h : (collectSavableWindows s.browserWindows).length with _ | n
    · simp [h]
    · rcases n with _ | m
      · simp [h]
      · simp [h]

/-- Witness for the amended claim C1 at a concrete state: startup mode
LoadHomePage, one live non-private window, session already saved; the quit
trigger does not save again. -/
theorem session_save_gating_witness :
    beforeBrowserQuitSaveArg
      { mode := StartupMode.LoadHomePage,
        browserWindows := [{ isNull := false, isPrivate := false }],
        sessionSaved := true } = none :=
  (session_save_gating _).1 (by decide) rfl

/-- Claim C2: whichever trigger fires, the list of windows passed to saveState
contains no private window. -/
theorem saved_windows_not_private (s : BrowserState) (ws : List WindowRef) :
    (beforeBrowserQuitSaveArg s = some ws ∨ maybeSaveSessionSaveArg s = some ws) →
    ∀ w ∈ ws, w.isPrivate = false := by
  intro hsave w hw
  have hcoll : w ∈ collectSavableWindows s.browserWindows := by
    rcases hsave with h | h
    · unfold beforeBrowserQuitSaveArg at h
      split at h
      · exact absurd h (by simp)
      · split at h
        · exact absurd h (by simp)
        · cases h
          exact hw
    · unfold maybeSaveSessionSaveArg at h
      split at h
      · exact absurd h (by simp)
      · cases h
        exact hw
  have hp := (List.mem_filter.mp hcoll).2
  simp only [Bool.and_eq_true, Bool.not_eq_true'] at hp
  exact hp.2

/-- Witness for claim C2 at a concrete state: a quit-trigger save of one live
non-private window, which is indeed not private. -/
theorem saved_windows_not_private_witness :
    ({ isNull := false, isPrivate := false } : WindowRef).isPrivate = false :=
  saved_windows_not_private
    { mode := StartupMode.RestoreSession,
      browserWindows := [{ isNull := false, isPrivate := false }],
      sessionSaved := false }
    [{ isNull := false, isPrivate := false }]
    (Or.inl (by decide))
    { isNull := false, isPrivate := false }
    (by decide)

/-! ## Theorems for the closed-tab ring -/

/-- Pushing onto a ring within capacity keeps it within capacity. -/
theorem ClosedTabRing.push_length_le (ring : List ClosedTabInfo) (info : ClosedTabInfo)
    (h : ring.length ≤ closedTabCapacity) :
    (ClosedTabRing.push ring info).length ≤ closedTabCapacity := by
  unfold ClosedTabRing.push
  split
  · simp only [List.length_tail, List.length_append, List.length_cons, List.length_nil]
    omega
  · rename_i hlt
    simp only [List.length_append, List.length_cons, List.length_nil] at *
    omega

/-- Push either appends, or (when the ring is at or beyond capacity) drops the
oldest entry from the front and appends. -/
theorem ClosedTabRing.push_decomp (ring : List ClosedTabInfo) (info : ClosedTabInfo) :
    ClosedTabRing.push ring info = ring ++ [info] ∨
      (closedTabCapacity ≤ ring.length ∧
        ClosedTabRing.push ring info = ring.tail ++ [info]) := by
  unfold ClosedTabRing.push
  split
  · rename_i hlt
    right
    simp only [List.length_append, List.length_cons, List.length_nil] at hlt
    refine ⟨by omega, ?_⟩
    cases ring with
    | nil => simp [closedTabCapacity] at hlt
    | cons a as => simp
  · left
    rfl

/-- Pop of a list ending in an entry returns that entry and the remainder. -/
theorem ClosedTabRing.pop_concat (l : List ClosedTabInfo) (info : ClosedTabInfo) :
    ClosedTabRing.pop (l ++ [info]) = some (info, l) := by
  unfold ClosedTabRing.pop
  rw [List.getLast?_concat, List.dropLast_concat]

/-- Pop after a push returns the pushed entry, leaving either the original ring
or (if the push evicted) the original ring without its oldest entry. -/
theorem ClosedTabRing.pop_push (ring : List ClosedTabInfo) (info : ClosedTabInfo) :
    ∃ r, ClosedTabRing.pop (ClosedTabRing.push ring info) = some (info, r) ∧
      (r = ring ∨ (closedTabCapacity ≤ ring.length ∧ r = ring.tail)) := by
  rcases ClosedTabRing.push_decomp ring info with h | ⟨hlen, h⟩
  · exact ⟨ring, by rw [h, ClosedTabRing.pop_concat], Or.inl rfl⟩
  · exact ⟨ring.tail, by rw [h, ClosedTabRing.pop_concat], Or.inr ⟨hlen, rfl⟩⟩

/-- Claim C3: along every sequence of pushes starting from the empty ring the
ring never exceeds 30 entries, and a push onto a full ring evicts exactly the
oldest (front) entry while appending the new one at the back. -/
theorem closedTabRing_capacity :
    (∀ ops : List ClosedTabInfo,
      (ops.foldl ClosedTabRing.push []).length ≤ closedTabCapacity) ∧
    (∀ (ring : List ClosedTabInfo) (info : ClosedTabInfo),
      ring.length = closedTabCapacity →
      ClosedTabRing.push ring info = ring.tail ++ [info]) := by
  constructor
  · intro ops
    have general : ∀ (l : List ClosedTabInfo) (start : List ClosedTabInfo),
        start.length ≤ closedTabCapacity →
        (l.foldl ClosedTabRing.push start).length ≤ closedTabCapacity := by
      intro l
      induction l with
      | nil => intro start h; simpa using h
      | cons x xs ih =>
        intro start h
        exact ih _ (ClosedTabRing.push_length_le start x h)
    exact general ops [] (by simp [closedTabCapacity])
  · intro ring info hfull
    rcases ClosedTabRing.push_decomp ring info with h | ⟨_, h⟩
    · exfalso
      have : (ClosedTabRing.push ring info).length ≤ closedTabCapacity :=
        ClosedTabRing.push_length_le ring info (le_of_eq hfull)
      rw [h] at this
      simp only [List.length_append, List.length_cons, List.length_nil] at this
      omega
    · exact h

/-- Witness for claim C3 at a concrete full ring: pushing a fresh entry onto 30
identical entries drops the front one and appends the new one. -/
theorem closedTabRing_capacity_witness :
    ClosedTabRing.push
        (List.replicate 30 ({ index := 0, url := "a", pageHistory := [], pinned := false }))
        ({ index := 1, url := "b", pageHistory := [], pinned := true }) =
      (List.replicate 30
          ({ index := 0, url := "a", pageHistory := [], pinned := false } : ClosedTabInfo)).tail
        ++ [{ index := 1, url := "b", pageHistory := [], pinned := true }] :=
  closedTabRing_capacity.2 _ _ (by simp [closedTabCapacity])

/-- Claim C4: the ring is LIFO. After push A then push B, the first pop returns
B and the next pop returns A; pop removes exactly the entry it returns from
the back; and pop on the empty ring returns none. -/
theorem closedTabRing_lifo :
    (∀ (ring : List ClosedTabInfo) (a b : ClosedTabInfo), ∃ r1 r2,
      ClosedTabRing.pop (ClosedTabRing.push (ClosedTabRing.push ring a) b) = some (b, r1) ∧
      ClosedTabRing.pop r1 = some (a, r2)) ∧
    (∀ (ring : List ClosedTabInfo) (x : ClosedTabInfo) (rest : List ClosedTabInfo),
      ClosedTabRing.pop ring = some (x, rest) → rest ++ [x] = ring) ∧
    ClosedTabRing.pop [] = none := by
  refine ⟨?_, ?_, rfl⟩
  · intro ring a b
    obtain ⟨r1, hpop1, hr1⟩ := ClosedTabRing.pop_push (ClosedTabRing.push ring a) b
    have hs1 : ∃ m, ClosedTabRing.push ring a = m ++ [a] := by
      rcases ClosedTabRing.push_decomp ring a with h1 | ⟨_, h1⟩
      · exact ⟨ring, h1⟩
      · exact ⟨ring.tail, h1⟩
    obtain ⟨m, hm⟩ := hs1
    have hends : ∃ l, r1 = l ++ [a] := by
      rcases hr1 with rfl | ⟨hlen, rfl⟩
      · exact ⟨m, hm⟩
      · rw [hm] at hlen ⊢
        simp only [List.length_append, List.length_cons, List.length_nil] at hlen
        cases m with
        | nil => simp [closedTabCapacity] at hlen
        | cons w ws => exact ⟨ws, by simp⟩
    obtain ⟨l, rfl⟩ := hends
    exact ⟨l ++ [a], l, hpop1, ClosedTabRing.pop_concat l a⟩
  · intro ring x rest hpop
    unfold ClosedTabRing.pop at hpop
    cases hlast : ring.getLast? with
    | none => rw [hlast] at hpop; cases hpop
    | some y =>
      rw [hlast] at hpop
      cases hpop
      exact List.dropLast_append_getLast? _ hlast

/-- Witness for claim C4 at concrete data: pop removes the entry it returns. -/
theorem closedTabRing_lifo_witness :
    ([] : List ClosedTabInfo) ++
        [({ index := 5, url := "w", pageHistory := [2], pinned := true } : ClosedTabInfo)] =
      [{ index := 5, url := "w", pageHistory := [2], pinned := true }] :=
  closedTabRing_lifo.2.1
    [{ index := 5, url := "w", pageHistory := [2], pinned := true }]
    { index := 5, url := "w", pageHistory := [2], pinned := true }
    []
    (by decide)

/-! ## Theorem for tab lookup -/

/-- Claim C10: getWebWidget returns none on any out-of-range index (negative or
at least the tab count) and returns the tab entry itself on any in-range
index. -/
theorem getWebWidget_bounds (tabs : List Nat) (tabIndex : Int) :
    ((tabIndex < 0 ∨ (tabs.length : Int) ≤ tabIndex) → getWebWidget tabs tabIndex = none) ∧
    ((0 ≤ tabIndex ∧ tabIndex < (tabs.length : Int)) →
      getWebWidget tabs tabIndex = tabs.get? tabIndex.toNat ∧
      (getWebWidget tabs tabIndex).isSome = true) := by
  constructor
  · intro hbad
    unfold getWebWidget
    split
    · rename_i hgood
      exfalso
      rcases hbad with hneg | hbig
      · omega
      · have := hgood.2
        omega
    · rfl
  · rintro ⟨hle, hlt⟩
    have hnat : tabIndex.toNat < tabs.length := by omega
    unfold getWebWidget
    split
    · rename_i hgood
      constructor
      · rw [List.get?_eq_get hnat]
      · rfl
    · rename_i hgood
      exact absurd ⟨hle, hnat⟩ hgood

/-- Witness for claim C10 at concrete data: index 5 on a two-tab list yields
none, index 1 yields the second tab. -/
theorem getWebWidget_bounds_witness :
    getWebWidget [10, 20] 5 = none ∧ getWebWidget [10, 20] 1 = [10, 20].get? 1 :=
  ⟨(getWebWidget_bounds [10, 20] 5).1 (by decide),
   ((getWebWidget_bounds [10, 20] 1).2 (by decide)).1⟩

/-! ## Theorems for the session snapshot -/

/-- Decoding a run of encoded tab entries returns exactly the encoded tabs. -/
theorem decodeTabs_encode (tabs : List TabState) (rest : List SessionToken) :
    decodeTabs tabs.length
        (tabs.map (fun t => SessionToken.tabEntry t.url t.pageHistory t.pinned) ++ rest) =
      some (tabs, rest) := by
  induction tabs with
  | nil => rfl
  | cons t ts ih =>
    simp only [List.map_cons, List.length_cons, List.cons_append, decodeTabs,
      List.append_eq, ih]

/-- Decoding one encoded window returns exactly that window. -/
theorem decodeWindow_encode (w : WindowState) (rest : List SessionToken) :
    decodeWindow (encodeWindow w ++ rest) = some (w, rest) := by
  simp only [encodeWindow, List.cons_append, List.append_assoc, decodeWindow,
    List.append_eq, decodeTabs_encode]
  rfl

/-- Decoding a run of encoded windows returns exactly the encoded windows. -/
theorem decodeWindows_encode (ws : List WindowState) (rest : List SessionToken) :
    decodeWindows ws.length ((ws.map encodeWindow).flatten ++ rest) = some (ws, rest) := by
  induction ws generalizing rest with
  | nil => rfl
  | cons w wins ih =>
    simp only [List.map_cons, List.length_cons, List.flatten_cons, List.append_assoc,
      decodeWindows, decodeWindow_encode, ih]

/-- Claim C7: the session round-trips. Saving any list of windows, each with
its ordered tabs carrying URL, history and pinned flag, and restoring the
snapshot yields back exactly the same windows: same order, same URLs, same
pinned flags. -/
theorem session_roundtrip (ws : List WindowState) :
    restoreSession (saveState ws) = some ws := by
  have h := decodeWindows_encode ws []
  rw [List.append_nil] at h
  simp only [saveState, restoreSession, h]

mutual

/-- Simultaneous induction over a bookmark node and the lists of nodes nested
inside it. -/
theorem bnodeInd (P : BNode → Prop) (Q : List BNode → Prop)
    (h1 : ∀ i fo n u cs, Q cs → P (BNode.mk i fo n u cs))
    (h2 : Q [])
    (h3 : ∀ c cs, P c → Q cs → Q (c :: cs)) : ∀ t, P t
  | .mk i fo n u cs => h1 i fo n u cs (bnodeIndL P Q h1 h2 h3 cs)

/-- Simultaneous induction over a list of bookmark nodes. -/
theorem bnodeIndL (P : BNode → Prop) (Q : List BNode → Prop)
    (h1 : ∀ i fo n u cs, Q cs → P (BNode.mk i fo n u cs))
    (h2 : Q [])
    (h3 : ∀ c cs, P c → Q cs → Q (c :: cs)) : ∀ l, Q l
  | [] => h2
  | c :: cs => h3 c cs (bnodeInd P Q h1 h2 h3 c) (bnodeIndL P Q h1 h2 h3 cs)

end

/-! ## Basic lemmas about the bookmark tree -/

@[simp] theorem BNode.id_mk (i : Nat) (fo : Bool) (n u : String) (cs : List BNode) :
    (BNode.mk i fo n u cs).id = i := rfl

@[simp] theorem BNode.isFolder_mk (i : Nat) (fo : Bool) (n u : String) (cs : List BNode) :
    (BNode.mk i fo n u cs).isFolder = fo := rfl

@[simp] theorem BNode.name_mk (i : Nat) (fo : Bool) (n u : String) (cs : List BNode) :
    (BNode.mk i fo n u cs).name = n := rfl

@[simp] theorem BNode.url_mk (i : Nat) (fo : Bool) (n u : String) (cs : List BNode) :
    (BNode.mk i fo n u cs).url = u := rfl

@[simp] theorem BNode.children_mk (i : Nat) (fo : Bool) (n u : String) (cs : List BNode) :
    (BNode.mk i fo n u cs).children = cs := rfl

@[simp] theorem subtreeIds_mk (i : Nat) (fo : Bool) (n u : String) (cs : List BNode) :
    subtreeIds (BNode.mk i fo n u cs) = i :: subtreeIdsL cs := by
  rw [subtreeIds]

@[simp] theorem subtreeIdsL_nil : subtreeIdsL [] = [] := by rw [subtreeIdsL]

@[simp] theorem subtreeIdsL_cons (c : BNode) (cs : List BNode) :
    subtreeIdsL (c :: cs) = subtreeIds c ++ subtreeIdsL cs := by rw [subtreeIdsL]

@[simp] theorem allNodes_mk (i : Nat) (fo : Bool) (n u : String) (cs : List BNode) :
    allNodes (BNode.mk i fo n u cs) = BNode.mk i fo n u cs :: allNodesL cs := by
  rw [allNodes]

@[simp] theorem allNodesL_nil : allNodesL [] = [] := by rw [allNodesL]

@[simp] theorem allNodesL_cons (c : BNode) (cs : List BNode) :
    allNodesL (c :: cs) = allNodes c ++ allNodesL cs := by rw [allNodesL]

@[simp] theorem nodeRows_mk (i : Nat) (fo : Bool) (n u : String) (cs : List BNode) :
    nodeRows (BNode.mk i fo n u cs) = childRows i cs := by rw [nodeRows]

@[simp] theorem childRows_nil (pid : Nat) : childRows pid [] = [] := by rw [childRows]

@[simp] theorem childRows_cons (pid : Nat) (c : BNode) (cs : List BNode) :
    childRows pid (c :: cs) = rowOf pid c :: (nodeRows c ++ childRows pid cs) := by
  rw [childRows]

theorem subtreeIdsL_append (a b : List BNode) :
    subtreeIdsL (a ++ b) = subtreeIdsL a ++ subtreeIdsL b := by
  induction a with
  | nil => simp
  | cons c cs ih => simp [ih]

theorem allNodesL_append (a b : List BNode) :
    allNodesL (a ++ b) = allNodesL a ++ allNodesL b := by
  induction a with
  | nil => simp
  | cons c cs ih => simp [ih]

theorem childRows_append (pid : Nat) (a b : List BNode) :
    childRows pid (a ++ b) = childRows pid a ++ childRows pid b := by
  induction a with
  | nil => simp
  | cons c cs ih => simp [ih]

theorem allNodes_self_mem (t : BNode) : t ∈ allNodes t := by
  cases t with
  | mk i fo n u cs => simp

/-- The fields of a node other than its children survive updateChildren. -/
theorem updateChildren_fields (pid : Nat) (f : List BNode → List BNode) (t : BNode) :
    (updateChildren pid f t).id = t.id ∧ (updateChildren pid f t).isFolder = t.isFolder ∧
    (updateChildren pid f t).name = t.name ∧ (updateChildren pid f t).url = t.url := by
  cases t with
  | mk i fo n u cs =>
    rw [updateChildren]
    split <;> simp

/-- Depth-first node identifiers are the identifiers of the depth-first node
list. -/
theorem subtreeIds_eq_map (t : BNode) : subtreeIds t = (allNodes t).map BNode.id := by
  refine bnodeInd (fun t => subtreeIds t = (allNodes t).map BNode.id)
    (fun l => subtreeIdsL l = (allNodesL l).map BNode.id) ?_ ?_ ?_ t
  · intro i fo n u cs h
    simp [h]
  · simp
  · intro c cs hc hcs
    simp [hc, hcs]

/-- The identifiers of the storage rows of a forest are exactly the node
identifiers of the forest. -/
theorem childRows_map_id (cs : List BNode) :
    ∀ pid, (childRows pid cs).map StorageRow.id = subtreeIdsL cs := by
  refine bnodeIndL (fun t => (nodeRows t).map StorageRow.id = subtreeIdsL t.children)
    (fun l => ∀ pid, (childRows pid l).map StorageRow.id = subtreeIdsL l) ?_ ?_ ?_ cs
  · intro i fo n u cs2 h
    simpa using h i
  · simp
  · intro c cs2 hc hcs2
    intro pid
    cases c with
    | mk i fo n u gcs =>
      simp only [childRows_cons, List.map_cons, List.map_append, subtreeIdsL_cons]
      simp only [nodeRows_mk] at hc ⊢
      simp only [BNode.children_mk] at hc
      simp [rowOf, hc, hcs2]

/-- Rewriting the children of an id that does not occur leaves the tree
unchanged. -/
theorem updateChildren_noop (pid : Nat) (f : List BNode → List BNode) (t : BNode)
    (h : pid ∉ subtreeIds t) : updateChildren pid f t = t := by
  refine bnodeInd (fun t => pid ∉ subtreeIds t → updateChildren pid f t = t)
    (fun l => pid ∉ subtreeIdsL l → updateChildrenL pid f l = l) ?_ ?_ ?_ t h
  · intro i fo n u cs ih hmem
    rw [updateChildren]
    simp only [subtreeIds_mk, List.mem_cons, not_or] at hmem
    rw [if_neg (fun he => hmem.1 he.symm), ih hmem.2]
  · intro _
    rw [updateChildrenL]
  · intro c cs hc hcs hmem
    simp only [subtreeIdsL_cons, List.mem_append, not_or] at hmem
    rw [updateChildrenL, hc hmem.1, hcs hmem.2]

/-- Removing an id that does not occur leaves the forest unchanged. -/
theorem removeNodeL_noop (fid : Nat) (l : List BNode)
    (h : fid ∉ subtreeIdsL l) : removeNodeL fid l = l := by
  refine bnodeIndL (fun t => fid ∉ subtreeIds t → removeNode fid t = t)
    (fun l => fid ∉ subtreeIdsL l → removeNodeL fid l = l) ?_ ?_ ?_ l h
  · intro i fo n u cs ih hmem
    rw [removeNode]
    simp only [subtreeIds_mk, List.mem_cons, not_or] at hmem
    rw [ih hmem.2]
  · intro _
    rw [removeNodeL]
  · intro c cs hc hcs hmem
    simp only [subtreeIdsL_cons, List.mem_append, not_or] at hmem
    have hid : c.id ≠ fid := by
      intro he
      apply hmem.1
      cases c with
      | mk i fo n u gcs => simp at he; simp [he]
    rw [removeNodeL, if_neg hid, hc hmem.1, hcs hmem.2]

/-- What findNode returns carries the looked-up id and belongs to the tree. -/
theorem findNode_sound (fid : Nat) (t : BNode) :
    ∀ sub, findNode fid t = some sub → sub.id = fid ∧ sub ∈ allNodes t := by
  refine bnodeInd (fun t => ∀ sub, findNode fid t = some sub → sub.id = fid ∧ sub ∈ allNodes t)
    (fun l => ∀ sub, findNodeL fid l = some sub → sub.id = fid ∧ sub ∈ allNodesL l) ?_ ?_ ?_ t
  · intro i fo n u cs ih sub hfind
    rw [findNode] at hfind
    split at hfind
    · rename_i he
      cases hfind
      exact ⟨by simp [he], allNodes_self_mem _⟩
    · rcases ih sub hfind with ⟨h1, h2⟩
      exact ⟨h1, by simp [h2]⟩
  · intro sub hfind
    rw [findNodeL] at hfind
    cases hfind
  · intro c cs hc hcs sub hfind
    rw [findNodeL] at hfind
    rcases hfc : findNode fid c with _ | n
    · rw [hfc] at hfind
      rcases hcs sub hfind with ⟨h1, h2⟩
      exact ⟨h1, by simp [h2]⟩
    · rw [hfc] at hfind
      cases hfind
      rcases hc _ hfc with ⟨h1, h2⟩
      exact ⟨h1, by simp [h2]⟩

/-- An id present in the tree is found by findNode. -/
theorem findNode_complete (fid : Nat) (t : BNode)
    (h : fid ∈ subtreeIds t) : (findNode fid t).isSome := by
  refine bnodeInd (fun t => fid ∈ subtreeIds t → (findNode fid t).isSome)
    (fun l => fid ∈ subtreeIdsL l → (findNodeL fid l).isSome) ?_ ?_ ?_ t h
  · intro i fo n u cs ih hmem
    rw [findNode]
    split
    · simp
    · rename_i hne
      simp only [subtreeIds_mk, List.mem_cons] at hmem
      rcases hmem with he | hmem
      · exact absurd he.symm hne
      · exact ih hmem
  · intro hmem
    simp at hmem
  · intro c cs hc hcs hmem
    rw [findNodeL]
    simp only [subtreeIdsL_cons, List.mem_append] at hmem
    rcases hfc : findNode fid c with _ | n
    · rcases hmem with hmem | hmem
      · have := hc hmem
        rw [hfc] at this
        simp at this
      · exact hcs hmem
    · simp

/-- The subtree identifiers of any node of the tree are among the tree's. -/
theorem mem_allNodes_sub (t : BNode) :
    ∀ n ∈ allNodes t, subtreeIds n ⊆ subtreeIds t := by
  refine bnodeInd (fun t => ∀ n ∈ allNodes t, subtreeIds n ⊆ subtreeIds t)
    (fun l => ∀ n ∈ allNodesL l, subtreeIds n ⊆ subtreeIdsL l) ?_ ?_ ?_ t
  · intro i fo n u cs ih m hm
    simp only [allNodes_mk, List.mem_cons] at hm
    rcases hm with rfl | hm
    · exact fun x hx => hx
    · intro x hx
      have := ih m hm hx
      simp [this]
  · intro n hn
    simp at hn
  · intro c cs hc hcs n hn
    simp only [allNodesL_cons, List.mem_append] at hn
    intro x hx
    rcases hn with hn | hn
    · simp [hc n hn hx]
    · simp [hcs n hn hx]

/-- Under distinct identifiers, a node of the tree is determined by its id. -/
theorem nodup_node_inj (t : BNode) (hnd : (subtreeIds t).Nodup)
    (n m : BNode) (hn : n ∈ allNodes t) (hm : m ∈ allNodes t) (hid : n.id = m.id) :
    n = m := by
  rw [subtreeIds_eq_map] at hnd
  exact List.inj_on_of_nodup_map hnd hn hm hid

@[simp] theorem removeNode_mk (fid i : Nat) (fo : Bool) (n u : String) (cs : List BNode) :
    removeNode fid (BNode.mk i fo n u cs) = BNode.mk i fo n u (removeNodeL fid cs) := by
  rw [removeNode]

@[simp] theorem removeNodeL_nil (fid : Nat) : removeNodeL fid [] = [] := by rw [removeNodeL]

theorem removeNodeL_cons (fid : Nat) (c : BNode) (cs : List BNode) :
    removeNodeL fid (c :: cs) =
      if c.id = fid then removeNodeL fid cs else removeNode fid c :: removeNodeL fid cs := by
  rw [removeNodeL]

@[simp] theorem findNode_mk (fid i : Nat) (fo : Bool) (n u : String) (cs : List BNode) :
    findNode fid (BNode.mk i fo n u cs) =
      if i = fid then some (BNode.mk i fo n u cs) else findNodeL fid cs := by
  rw [findNode]

@[simp] theorem findNodeL_nil (fid : Nat) : findNodeL fid [] = none := by rw [findNodeL]

theorem findNodeL_cons (fid : Nat) (c : BNode) (cs : List BNode) :
    findNodeL fid (c :: cs) =
      match findNode fid c with
      | some n => some n
      | none => findNodeL fid cs := by
  rw [findNodeL]

@[simp] theorem updateChildren_mk (pid : Nat) (f : List BNode → List BNode)
    (i : Nat) (fo : Bool) (n u : String) (cs : List BNode) :
    updateChildren pid f (BNode.mk i fo n u cs) =
      if i = pid then BNode.mk i fo n u (f cs)
      else BNode.mk i fo n u (updateChildrenL pid f cs) := by
  rw [updateChildren]

@[simp] theorem updateChildrenL_nil (pid : Nat) (f : List BNode → List BNode) :
    updateChildrenL pid f [] = [] := by rw [updateChildrenL]

@[simp] theorem updateChildrenL_cons (pid : Nat) (f : List BNode → List BNode)
    (c : BNode) (cs : List BNode) :
    updateChildrenL pid f (c :: cs) =
      updateChildren pid f c :: updateChildrenL pid f cs := by
  rw [updateChildrenL]

theorem id_mem_subtreeIds (t : BNode) : t.id ∈ subtreeIds t := by
  cases t with
  | mk i fo n u cs => simp

/-- Removing an id that does not occur leaves the tree unchanged. -/
theorem removeNode_noop (fid : Nat) (t : BNode)
    (h : fid ∉ subtreeIds t) : removeNode fid t = t := by
  refine bnodeInd (fun t => fid ∉ subtreeIds t → removeNode fid t = t)
    (fun l => fid ∉ subtreeIdsL l → removeNodeL fid l = l) ?_ ?_ ?_ t h
  · intro i fo n u cs ih hmem
    simp only [subtreeIds_mk, List.mem_cons, not_or] at hmem
    rw [removeNode_mk, ih hmem.2]
  · intro _
    rfl
  · intro c cs hc hcs hmem
    simp only [subtreeIdsL_cons, List.mem_append, not_or] at hmem
    have hid : c.id ≠ fid := by
      intro he
      exact hmem.1 (he ▸ id_mem_subtreeIds c)
    rw [removeNodeL_cons, if_neg hid, hc hmem.1, hcs hmem.2]

/-- What findNodeL returns carries the looked-up id and belongs to the
forest. -/
theorem findNodeL_sound (fid : Nat) (l : List BNode) :
    ∀ sub, findNodeL fid l = some sub → sub.id = fid ∧ sub ∈ allNodesL l := by
  refine bnodeIndL (fun t => ∀ sub, findNode fid t = some sub → sub.id = fid ∧ sub ∈ allNodes t)
    (fun l => ∀ sub, findNodeL fid l = some sub → sub.id = fid ∧ sub ∈ allNodesL l) ?_ ?_ ?_ l
  · intro i fo n u cs ih sub hfind
    rw [findNode] at hfind
    split at hfind
    · rename_i he
      cases hfind
      exact ⟨by simp [he], allNodes_self_mem _⟩
    · rcases ih sub hfind with ⟨h1, h2⟩
      exact ⟨h1, by simp [h2]⟩
  · intro sub hfind
    rw [findNodeL] at hfind
    cases hfind
  · intro c cs hc hcs sub hfind
    rw [findNodeL] at hfind
    rcases hfc : findNode fid c with _ | n
    · rw [hfc] at hfind
      rcases hcs sub hfind with ⟨h1, h2⟩
      exact ⟨h1, by simp [h2]⟩
    · rw [hfc] at hfind
      cases hfind
      rcases hc _ hfc with ⟨h1, h2⟩
      exact ⟨h1, by simp [h2]⟩

/-- An id present in a forest is found by findNodeL. -/
theorem findNodeL_complete (fid : Nat) (l : List BNode)
    (h : fid ∈ subtreeIdsL l) : (findNodeL fid l).isSome := by
  refine bnodeIndL (fun t => fid ∈ subtreeIds t → (findNode fid t).isSome)
    (fun l => fid ∈ subtreeIdsL l → (findNodeL fid l).isSome) ?_ ?_ ?_ l h
  · intro i fo n u cs ih hmem
    rw [findNode]
    split
    · simp
    · rename_i hne
      simp only [subtreeIds_mk, List.mem_cons] at hmem
      rcases hmem with he | hmem
      · exact absurd he.symm hne
      · exact ih hmem
  · intro hmem
    simp at hmem
  · intro c cs hc hcs hmem
    rw [findNodeL]
    simp only [subtreeIdsL_cons, List.mem_append] at hmem
    rcases hfc : findNode fid c with _ | n
    · rcases hmem with hmem | hmem
      · have := hc hmem
        rw [hfc] at this
        simp at this
      · exact hcs hmem
    · simp

/-- The subtree identifiers of any node of a forest are among the forest's. -/
theorem mem_allNodesL_sub (l : List BNode) :
    ∀ n ∈ allNodesL l, subtreeIds n ⊆ subtreeIdsL l := by
  refine bnodeIndL (fun t => ∀ n ∈ allNodes t, subtreeIds n ⊆ subtreeIds t)
    (fun l => ∀ n ∈ allNodesL l, subtreeIds n ⊆ subtreeIdsL l) ?_ ?_ ?_ l
  · intro i fo n u cs ih m hm
    simp only [allNodes_mk, List.mem_cons] at hm
    rcases hm with rfl | hm
    · exact fun x hx => hx
    · intro x hx
      have := ih m hm hx
      simp [this]
  · intro n hn
    simp at hn
  · intro c cs hc hcs n hn
    simp only [allNodesL_cons, List.mem_append] at hn
    intro x hx
    rcases hn with hn | hn
    · simp [hc n hn hx]
    · simp [hcs n hn hx]

/-- Under distinct ids, pruning the found subtree keeps exactly the ids
outside that subtree, in their original depth-first order. -/
theorem removeNode_ids_filter (fid : Nat) (sub t : BNode)
    (hnd : (subtreeIds t).Nodup) (hne : t.id ≠ fid) (hfind : findNode fid t = some sub) :
    subtreeIds (removeNode fid t) =
      (subtreeIds t).filter (fun x => decide (x ∉ subtreeIds sub)) := by
  refine bnodeInd
    (fun t => (subtreeIds t).Nodup → t.id ≠ fid → findNode fid t = some sub →
      subtreeIds (removeNode fid t) =
        (subtreeIds t).filter (fun x => decide (x ∉ subtreeIds sub)))
    (fun l => (subtreeIdsL l).Nodup → findNodeL fid l = some sub →
      subtreeIdsL (removeNodeL fid l) =
        (subtreeIdsL l).filter (fun x => decide (x ∉ subtreeIds sub)))
    ?_ ?_ ?_ t hnd hne hfind
  · intro i fo n u cs ih hnd2 hne2 hfind2
    have hine : i ≠ fid := by simpa using hne2
    rw [findNode_mk, if_neg hine] at hfind2
    rw [subtreeIds_mk] at hnd2
    obtain ⟨hni, hndcs⟩ := List.nodup_cons.mp hnd2
    have hsubcs : subtreeIds sub ⊆ subtreeIdsL cs :=
      mem_allNodesL_sub cs sub (findNodeL_sound fid cs sub hfind2).2
    rw [removeNode_mk, subtreeIds_mk, subtreeIds_mk, ih hndcs hfind2,
      List.filter_cons_of_pos]
    simp only [decide_eq_true_eq]
    intro hin
    exact hni (hsubcs hin)
  · intro _ hfind2
    simp at hfind2
  · intro c cs hc hcs hnd2 hfind2
    rw [subtreeIdsL_cons] at hnd2
    have hdisj := List.disjoint_of_nodup_append hnd2
    rw [findNodeL_cons] at hfind2
    rcases hfc : findNode fid c with _ | m
    · rw [hfc] at hfind2
      simp only at hfind2
      have hninc : fid ∉ subtreeIds c := by
        intro hin
        have := findNode_complete fid c hin
        rw [hfc] at this
        simp at this
      have hcne : c.id ≠ fid := fun he => hninc (he ▸ id_mem_subtreeIds c)
      have hsubcs : subtreeIds sub ⊆ subtreeIdsL cs :=
        mem_allNodesL_sub cs sub (findNodeL_sound fid cs sub hfind2).2
      rw [removeNodeL_cons, if_neg hcne, subtreeIdsL_cons, removeNode_noop fid c hninc,
        hcs (List.Nodup.of_append_right hnd2) hfind2, subtreeIdsL_cons, List.filter_append]
      have hkeep : (subtreeIds c).filter (fun x => decide (x ∉ subtreeIds sub)) =
          subtreeIds c := by
        rw [List.filter_eq_self]
        intro a ha
        simp only [decide_eq_true_eq]
        intro hin
        exact hdisj ha (hsubcs hin)
      rw [hkeep]
    · rw [hfc] at hfind2
      simp only [Option.some.injEq] at hfind2
      rw [hfind2] at hfc
      obtain ⟨hsid, hsmem⟩ := findNode_sound fid c sub hfc
      by_cases hcid : c.id = fid
      · have hsubeq : sub = c := by
          cases c with
          | mk i fo n u gcs =>
            simp only [BNode.id_mk] at hcid
            rw [findNode_mk, if_pos hcid] at hfc
            exact (Option.some.injEq _ _ ▸ hfc :).symm
        subst hsubeq
        have hnincs : fid ∉ subtreeIdsL cs := by
          intro hin
          exact hdisj (hcid ▸ id_mem_subtreeIds sub) hin
        rw [removeNodeL_cons, if_pos hcid, removeNodeL_noop fid cs hnincs,
          subtreeIdsL_cons, List.filter_append]
        have hdrop : (subtreeIds sub).filter (fun x => decide (x ∉ subtreeIds sub)) = [] := by
          rw [List.filter_eq_nil_iff]
          intro a ha
          simp [ha]
        have hkeep : (subtreeIdsL cs).filter (fun x => decide (x ∉ subtreeIds sub)) =
            subtreeIdsL cs := by
          rw [List.filter_eq_self]
          intro a ha
          simp only [decide_eq_true_eq]
          intro hin
          exact hdisj hin ha
        rw [hdrop, hkeep, List.nil_append]
      · have hsubc : subtreeIds sub ⊆ subtreeIds c := mem_allNodes_sub c sub hsmem
        have hnincs : fid ∉ subtreeIdsL cs := by
          intro hin
          exact hdisj (hsubc (hsid ▸ id_mem_subtreeIds sub)) hin
        rw [removeNodeL_cons, if_neg hcid, subtreeIdsL_cons, subtreeIdsL_cons,
          removeNodeL_noop fid cs hnincs,
          hc (List.Nodup.of_append_left hnd2) hcid hfc, List.filter_append]
        have hkeep : (subtreeIdsL cs).filter (fun x => decide (x ∉ subtreeIds sub)) =
            subtreeIdsL cs := by
          rw [List.filter_eq_self]
          intro a ha
          simp only [decide_eq_true_eq]
          intro hin
          exact hdisj (hsubc hin) ha
        rw [hkeep]

/-- The id of a storage row of a forest is an id of the forest. -/
theorem mem_childRows_id (pid : Nat) (l : List BNode) (r : StorageRow)
    (hr : r ∈ childRows pid l) : r.id ∈ subtreeIdsL l := by
  have := List.mem_map_of_mem StorageRow.id hr
  rwa [childRows_map_id] at this

/-- The id of a storage row of a subtree is an id of the subtree. -/
theorem mem_nodeRows_id (c : BNode) (r : StorageRow)
    (hr : r ∈ nodeRows c) : r.id ∈ subtreeIds c := by
  cases c with
  | mk i fo n u cs =>
    rw [nodeRows_mk] at hr
    simp [mem_childRows_id i cs r hr]

/-- The storage row of a pruned child equals the row of the child itself. -/
theorem rowOf_removeNode (pid fid : Nat) (c : BNode) :
    rowOf pid (removeNode fid c) = rowOf pid c := by
  cases c with
  | mk i fo n u cs => simp [rowOf]

/-- Under distinct ids, pruning the found subtree keeps exactly the storage
rows whose id lies outside that subtree, in their original order. -/
theorem removeNode_rows_filter (fid : Nat) (sub t : BNode)
    (hnd : (subtreeIds t).Nodup) (hne : t.id ≠ fid) (hfind : findNode fid t = some sub) :
    nodeRows (removeNode fid t) =
      (nodeRows t).filter (fun r => decide (r.id ∉ subtreeIds sub)) := by
  refine bnodeInd
    (fun t => (subtreeIds t).Nodup → t.id ≠ fid → findNode fid t = some sub →
      nodeRows (removeNode fid t) =
        (nodeRows t).filter (fun r => decide (r.id ∉ subtreeIds sub)))
    (fun l => ∀ pid, (subtreeIdsL l).Nodup → findNodeL fid l = some sub →
      childRows pid (removeNodeL fid l) =
        (childRows pid l).filter (fun r => decide (r.id ∉ subtreeIds sub)))
    ?_ ?_ ?_ t hnd hne hfind
  · intro i fo n u cs ih hnd2 hne2 hfind2
    have hine : i ≠ fid := by simpa using hne2
    rw [findNode_mk, if_neg hine] at hfind2
    rw [subtreeIds_mk] at hnd2
    obtain ⟨hni, hndcs⟩ := List.nodup_cons.mp hnd2
    rw [removeNode_mk, nodeRows_mk, nodeRows_mk, ih i hndcs hfind2]
  · intro pid _ hfind2
    simp at hfind2
  · intro c cs hc hcs pid hnd2 hfind2
    rw [subtreeIdsL_cons] at hnd2
    have hdisj := List.disjoint_of_nodup_append hnd2
    rw [findNodeL_cons] at hfind2
    rcases hfc : findNode fid c with _ | m
    · rw [hfc] at hfind2
      simp only at hfind2
      have hninc : fid ∉ subtreeIds c := by
        intro hin
        have := findNode_complete fid c hin
        rw [hfc] at this
        simp at this
      have hcne : c.id ≠ fid := fun he => hninc (he ▸ id_mem_subtreeIds c)
      have hsubcs : subtreeIds sub ⊆ subtreeIdsL cs :=
        mem_allNodesL_sub cs sub (findNodeL_sound fid cs sub hfind2).2
      rw [removeNodeL_cons, if_neg hcne, childRows_cons, removeNode_noop fid c hninc,
        hcs pid (List.Nodup.of_append_right hnd2) hfind2, childRows_cons]
      rw [List.filter_cons_of_pos, List.filter_append]
      · have hkeep : (nodeRows c).filter (fun r => decide (r.id ∉ subtreeIds sub)) =
            nodeRows c := by
          rw [List.filter_eq_self]
          intro r hr
          simp only [decide_eq_true_eq]
          intro hin
          exact hdisj (mem_nodeRows_id c r hr) (hsubcs hin)
        rw [hkeep]
      · simp only [decide_eq_true_eq, rowOf]
        intro hin
        exact hdisj (id_mem_subtreeIds c) (hsubcs hin)
    · rw [hfc] at hfind2
      simp only [Option.some.injEq] at hfind2
      rw [hfind2] at hfc
      obtain ⟨hsid, hsmem⟩ := findNode_sound fid c sub hfc
      by_cases hcid : c.id = fid
      · have hsubeq : sub = c := by
          cases c with
          | mk i fo n u gcs =>
            simp only [BNode.id_mk] at hcid
            rw [findNode_mk, if_pos hcid] at hfc
            exact (Option.some.injEq _ _ ▸ hfc :).symm
        subst hsubeq
        have hnincs : fid ∉ subtreeIdsL cs := by
          intro hin
          exact hdisj (hcid ▸ id_mem_subtreeIds sub) hin
        rw [removeNodeL_cons, if_pos hcid, removeNodeL_noop fid cs hnincs, childRows_cons]
        rw [List.filter_cons_of_neg, List.filter_append]
        · have hdrop : (nodeRows sub).filter (fun r => decide (r.id ∉ subtreeIds sub)) = [] := by
            rw [List.filter_eq_nil_iff]
            intro r hr
            simp [mem_nodeRows_id sub r hr]
          have hkeep : (childRows pid cs).filter (fun r => decide (r.id ∉ subtreeIds sub)) =
              childRows pid cs := by
            rw [List.filter_eq_self]
            intro r hr
            simp only [decide_eq_true_eq]
            intro hin
            exact hdisj hin (mem_childRows_id pid cs r hr)
          rw [hdrop, hkeep, List.nil_append]
        · simp [rowOf, id_mem_subtreeIds sub]
      · have hsubc : subtreeIds sub ⊆ subtreeIds c := mem_allNodes_sub c sub hsmem
        have hnincs : fid ∉ subtreeIdsL cs := by
          intro hin
          exact hdisj (hsubc (hsid ▸ id_mem_subtreeIds sub)) hin
        have hcnotinsub : c.id ∉ subtreeIds sub := by
          cases c with
          | mk i fo n u gcs =>
            simp only [BNode.id_mk] at hcid ⊢
            rw [findNode_mk, if_neg (fun he => hcid he)] at hfc
            have hsubgcs : subtreeIds sub ⊆ subtreeIdsL gcs :=
              mem_allNodesL_sub gcs sub (findNodeL_sound fid gcs sub hfc).2
            have hndc : (subtreeIds (BNode.mk i fo n u gcs)).Nodup :=
              List.Nodup.of_append_left hnd2
            rw [subtreeIds_mk] at hndc
            obtain ⟨hni2, _⟩ := List.nodup_cons.mp hndc
            intro hin
            exact hni2 (hsubgcs hin)
        rw [removeNodeL_cons, if_neg hcid, childRows_cons, removeNodeL_noop fid cs hnincs,
          rowOf_removeNode pid fid c, hc (List.Nodup.of_append_left hnd2) hcid hfc,
          childRows_cons]
        rw [List.filter_cons_of_pos, List.filter_append]
        · have hkeep : (childRows pid cs).filter (fun r => decide (r.id ∉ subtreeIds sub)) =
              childRows pid cs := by
            rw [List.filter_eq_self]
            intro r hr
            simp only [decide_eq_true_eq]
            intro hin
            exact hdisj (hsubc hin) (mem_childRows_id pid cs r hr)
          rw [hkeep]
        · simp only [decide_eq_true_eq, rowOf]
          exact hcnotinsub

/-! ## Lemmas about child-list rewriting -/

/-- Rewriting the children of an id that does not occur leaves a forest
unchanged. -/
theorem updateChildrenL_noop (pid : Nat) (f : List BNode → List BNode) (l : List BNode)
    (h : pid ∉ subtreeIdsL l) : updateChildrenL pid f l = l := by
  induction l with
  | nil => simp
  | cons c cs ih =>
    simp only [subtreeIdsL_cons, List.mem_append, not_or] at h
    rw [updateChildrenL_cons, updateChildren_noop pid f c h.1, ih h.2]

/-- The storage row of a child survives updateChildren. -/
theorem rowOf_updateChildren (pid2 pid : Nat) (f : List BNode → List BNode) (c : BNode) :
    rowOf pid2 (updateChildren pid f c) = rowOf pid2 c := by
  cases c with
  | mk i fo n u cs =>
    rw [updateChildren_mk]
    split <;> simp [rowOf]

/-- If f fixes the children of every node of the tree carrying the id, the
rewrite is the identity. -/
theorem updateChildren_eq_self (pid : Nat) (f : List BNode → List BNode) (t : BNode)
    (h : ∀ n ∈ allNodes t, n.id = pid → f n.children = n.children) :
    updateChildren pid f t = t := by
  refine bnodeInd
    (fun t => (∀ n ∈ allNodes t, n.id = pid → f n.children = n.children) →
      updateChildren pid f t = t)
    (fun l => (∀ n ∈ allNodesL l, n.id = pid → f n.children = n.children) →
      updateChildrenL pid f l = l)
    ?_ ?_ ?_ t h
  · intro i fo n u cs ih hfix
    rw [updateChildren_mk]
    split
    · rename_i he
      have := hfix (BNode.mk i fo n u cs) (allNodes_self_mem _) (by simp [he])
      simp only [BNode.children_mk] at this
      rw [this]
    · rw [ih (fun m hm hid => hfix m (by simp [hm]) hid)]
  · intro _
    simp
  · intro c cs hc hcs hfix
    rw [updateChildrenL_cons,
      hc (fun m hm hid => hfix m (by simp [hm]) hid),
      hcs (fun m hm hid => hfix m (by simp [hm]) hid)]

/-- Permutation congruence of forest ids. -/
theorem subtreeIdsL_perm (l1 l2 : List BNode) (h : l1.Perm l2) :
    (subtreeIdsL l1).Perm (subtreeIdsL l2) := by
  induction h with
  | nil => rfl
  | cons x h2 ih =>
    simp only [subtreeIdsL_cons]
    exact ih.append_left _
  | swap x y l =>
    simp only [subtreeIdsL_cons, ← List.append_assoc]
    exact List.Perm.append_right _ List.perm_append_comm
  | trans h1 h2 ih1 ih2 => exact ih1.trans ih2

/-- Permutation congruence of forest storage rows. -/
theorem childRows_perm (pid : Nat) (l1 l2 : List BNode) (h : l1.Perm l2) :
    (childRows pid l1).Perm (childRows pid l2) := by
  induction h with
  | nil => rfl
  | cons x h2 ih =>
    simp only [childRows_cons]
    exact (ih.append_left _).cons _
  | swap x y l =>
    have e1 : childRows pid (y :: x :: l) =
        (rowOf pid y :: nodeRows y) ++ ((rowOf pid x :: nodeRows x) ++ childRows pid l) := by
      simp
    have e2 : childRows pid (x :: y :: l) =
        (rowOf pid x :: nodeRows x) ++ ((rowOf pid y :: nodeRows y) ++ childRows pid l) := by
      simp
    rw [e1, e2]
    exact List.perm_append_comm_assoc _ _ _
  | trans h1 h2 ih1 ih2 => exact ih1.trans ih2

/-- A child-list rewrite that permutes ids permutes the tree's ids. -/
theorem updateChildren_ids_perm (pid : Nat) (f : List BNode → List BNode)
    (hf : ∀ cs, (subtreeIdsL (f cs)).Perm (subtreeIdsL cs)) (t : BNode) :
    (subtreeIds (updateChildren pid f t)).Perm (subtreeIds t) := by
  refine bnodeInd
    (fun t => (subtreeIds (updateChildren pid f t)).Perm (subtreeIds t))
    (fun l => (subtreeIdsL (updateChildrenL pid f l)).Perm (subtreeIdsL l))
    ?_ ?_ ?_ t
  · intro i fo n u cs ih
    rw [updateChildren_mk]
    split
    · simpa using (hf cs).cons i
    · simpa using ih.cons i
  · simp
  · intro c cs hc hcs
    simp only [updateChildrenL_cons, subtreeIdsL_cons]
    exact hc.append hcs

/-- A child-list rewrite that permutes rows permutes the tree's rows. -/
theorem updateChildren_rows_perm (pid : Nat) (f : List BNode → List BNode)
    (hfr : ∀ cs, (childRows pid (f cs)).Perm (childRows pid cs)) (t : BNode) :
    (nodeRows (updateChildren pid f t)).Perm (nodeRows t) := by
  refine bnodeInd
    (fun t => (nodeRows (updateChildren pid f t)).Perm (nodeRows t))
    (fun l => ∀ pid2, (childRows pid2 (updateChildrenL pid f l)).Perm (childRows pid2 l))
    ?_ ?_ ?_ t
  · intro i fo n u cs ih
    rw [updateChildren_mk]
    split
    · rename_i he
      subst he
      simpa using hfr cs
    · simpa using ih i
  · intro pid2
    simp
  · intro c cs hc hcs pid2
    simp only [updateChildrenL_cons, childRows_cons, rowOf_updateChildren]
    exact (hc.append (hcs pid2)).cons _

/-- A child-list rewrite that adds ids, applied at a uniquely occurring id,
adds those ids to the tree. -/
theorem updateChildren_ids_add (pid : Nat) (f : List BNode → List BNode) (newIds : List Nat)
    (hf : ∀ cs, (subtreeIdsL (f cs)).Perm (newIds ++ subtreeIdsL cs)) (t : BNode)
    (hnd : (subtreeIds t).Nodup) (hmem : pid ∈ subtreeIds t) :
    (subtreeIds (updateChildren pid f t)).Perm (newIds ++ subtreeIds t) := by
  refine bnodeInd
    (fun t => (subtreeIds t).Nodup → pid ∈ subtreeIds t →
      (subtreeIds (updateChildren pid f t)).Perm (newIds ++ subtreeIds t))
    (fun l => (subtreeIdsL l).Nodup → pid ∈ subtreeIdsL l →
      (subtreeIdsL (updateChildrenL pid f l)).Perm (newIds ++ subtreeIdsL l))
    ?_ ?_ ?_ t hnd hmem
  · intro i fo n u cs ih hnd2 hmem2
    rw [updateChildren_mk]
    split
    · have step : (subtreeIds (BNode.mk i fo n u (f cs))).Perm
          (i :: (newIds ++ subtreeIdsL cs)) := by
        simpa using (hf cs).cons i
      refine step.trans ?_
      simpa using List.perm_middle.symm
    · rename_i hne
      rw [subtreeIds_mk] at hnd2 hmem2 ⊢
      have hpidcs : pid ∈ subtreeIdsL cs := by
        rcases List.mem_cons.mp hmem2 with he | h2
        · exact absurd he.symm hne
        · exact h2
      have step := ih (List.nodup_cons.mp hnd2).2 hpidcs
      refine (step.cons i).trans ?_
      simpa using List.perm_middle.symm
  · intro _ hmem2
    simp at hmem2
  · intro c cs hc hcs hnd2 hmem2
    rw [subtreeIdsL_cons] at hnd2 hmem2 ⊢
    have hdisj := List.disjoint_of_nodup_append hnd2
    rw [updateChildrenL_cons, subtreeIdsL_cons]
    rcases List.mem_append.mp hmem2 with hinc | hincs
    · have hnotcs : pid ∉ subtreeIdsL cs := fun h2 => hdisj hinc h2
      rw [updateChildrenL_noop pid f cs hnotcs]
      have step := hc (List.Nodup.of_append_left hnd2) hinc
      refine (step.append_right _).trans ?_
      rw [List.append_assoc]
    · have hnotc : pid ∉ subtreeIds c := fun h2 => hdisj h2 hincs
      rw [updateChildren_noop pid f c hnotc]
      have step := hcs (List.Nodup.of_append_right hnd2) hincs
      refine (step.append_left _).trans ?_
      exact List.perm_append_comm_assoc _ _ _

/-- A child-list rewrite that adds rows, applied at a uniquely occurring id,
adds those rows to the tree's storage rows. -/
theorem updateChildren_rows_add (pid : Nat) (f : List BNode → List BNode)
    (newRows : List StorageRow)
    (hfr : ∀ cs, (childRows pid (f cs)).Perm (newRows ++ childRows pid cs)) (t : BNode)
    (hnd : (subtreeIds t).Nodup) (hmem : pid ∈ subtreeIds t) :
    (nodeRows (updateChildren pid f t)).Perm (newRows ++ nodeRows t) := by
  refine bnodeInd
    (fun t => (subtreeIds t).Nodup → pid ∈ subtreeIds t →
      (nodeRows (updateChildren pid f t)).Perm (newRows ++ nodeRows t))
    (fun l => ∀ pid2, (subtreeIdsL l).Nodup → pid ∈ subtreeIdsL l →
      (childRows pid2 (updateChildrenL pid f l)).Perm (newRows ++ childRows pid2 l))
    ?_ ?_ ?_ t hnd hmem
  · intro i fo n u cs ih hnd2 hmem2
    rw [updateChildren_mk]
    split
    · rename_i he
      subst he
      simpa using hfr cs
    · rename_i hne
      rw [subtreeIds_mk] at hnd2 hmem2
      have hpidcs : pid ∈ subtreeIdsL cs := by
        rcases List.mem_cons.mp hmem2 with he | h2
        · exact absurd he.symm hne
        · exact h2
      simpa using ih i (List.nodup_cons.mp hnd2).2 hpidcs
  · intro pid2 _ hmem2
    simp at hmem2
  · intro c cs hc hcs pid2 hnd2 hmem2
    rw [subtreeIdsL_cons] at hnd2 hmem2
    have hdisj := List.disjoint_of_nodup_append hnd2
    rw [updateChildrenL_cons, childRows_cons, childRows_cons, rowOf_updateChildren]
    rcases List.mem_append.mp hmem2 with hinc | hincs
    · have hnotcs : pid ∉ subtreeIdsL cs := fun h2 => hdisj hinc h2
      rw [updateChildrenL_noop pid f cs hnotcs]
      have step := hc (List.Nodup.of_append_left hnd2) hinc
      have base : (nodeRows (updateChildren pid f c) ++ childRows pid2 cs).Perm
          ((newRows ++ nodeRows c) ++ childRows pid2 cs) := step.append_right _
      refine (base.cons _).trans ?_
      rw [List.append_assoc]
      exact List.perm_middle.symm
    · have hnotc : pid ∉ subtreeIds c := fun h2 => hdisj h2 hincs
      rw [updateChildren_noop pid f c hnotc]
      have step := hcs pid2 (List.Nodup.of_append_right hnd2) hincs
      have base : (nodeRows c ++ childRows pid2 (updateChildrenL pid f cs)).Perm
          (nodeRows c ++ (newRows ++ childRows pid2 cs)) := step.append_left _
      refine (base.cons _).trans ?_
      refine ((List.perm_append_comm_assoc _ _ _).cons _).trans ?_
      exact List.perm_middle.symm

/-- A child-list rewrite that introduces a node, applied at a present id,
makes that node a node of the tree. -/
theorem updateChildren_mem (pid : Nat) (f : List BNode → List BNode) (F : BNode)
    (hin : ∀ cs, F ∈ allNodesL (f cs)) (t : BNode) (hmem : pid ∈ subtreeIds t) :
    F ∈ allNodes (updateChildren pid f t) := by
  refine bnodeInd
    (fun t => pid ∈ subtreeIds t → F ∈ allNodes (updateChildren pid f t))
    (fun l => pid ∈ subtreeIdsL l → F ∈ allNodesL (updateChildrenL pid f l))
    ?_ ?_ ?_ t hmem
  · intro i fo n u cs ih hmem2
    rw [updateChildren_mk]
    split
    · simp [List.mem_cons, hin cs]
    · rename_i hne
      rw [subtreeIds_mk] at hmem2
      have hpidcs : pid ∈ subtreeIdsL cs := by
        rcases List.mem_cons.mp hmem2 with he | h2
        · exact absurd he.symm hne
        · exact h2
      simp [ih hpidcs]
  · intro hmem2
    simp at hmem2
  · intro c cs hc hcs hmem2
    rw [subtreeIdsL_cons] at hmem2
    rw [updateChildrenL_cons]
    rcases List.mem_append.mp hmem2 with hinc | hincs
    · simp [hc hinc]
    · simp [hcs hincs]

/-! ## Lemmas about list reordering -/

/-- Reinserting the removed entry at its own index reconstructs the list. -/
theorem insertIdx_getElem_eraseIdx {α : Type _} (l : List α) (i : Nat) (h : i < l.length) :
    (l.eraseIdx i).insertIdx i (l.get ⟨i, h⟩) = l := by
  induction l generalizing i with
  | nil => simp at h
  | cons a as ih =>
    cases i with
    | zero => simp
    | succ n =>
      simp only [List.eraseIdx_cons_succ, List.insertIdx_succ_cons, List.get_cons_succ]
      rw [ih n (by simpa using h)]

/-- Moving an entry to the index it already occupies changes nothing. -/
theorem moveChild_self (itemId i : Nat) (cs : List BNode)
    (hidx : cs.findIdx? (fun c => decide (c.id = itemId)) = some i) :
    moveChild itemId i cs = cs := by
  obtain ⟨hlt, -, -⟩ := List.findIdx?_eq_some_iff_getElem.mp hidx
  rw [moveChild]
  split
  · rfl
  · rename_i j hj
    rw [hidx] at hj
    cases hj
    split
    · rename_i hnone
      exact absurd hnone (by simp [List.getElem?_eq_getElem hlt])
    · rename_i c hc
      rw [List.getElem?_eq_getElem hlt] at hc
      cases hc
      have hmin : min i (cs.eraseIdx i).length = i := by
        rw [List.length_eraseIdx_of_lt hlt]
        omega
      rw [hmin]
      exact insertIdx_getElem_eraseIdx cs i hlt

/-- Moving an entry permutes the child list. -/
theorem moveChild_perm (itemId pos : Nat) (cs : List BNode) :
    (moveChild itemId pos cs).Perm cs := by
  rw [moveChild]
  split
  · exact List.Perm.refl cs
  · rename_i i hidx
    obtain ⟨hlt, -, -⟩ := List.findIdx?_eq_some_iff_getElem.mp hidx
    split
    · exact List.Perm.refl cs
    · rename_i c hc
      rw [List.getElem?_eq_getElem hlt] at hc
      cases hc
      have h1 : ((cs.eraseIdx i).insertIdx (min pos (cs.eraseIdx i).length)
          (cs.get ⟨i, hlt⟩)).Perm (cs.get ⟨i, hlt⟩ :: cs.eraseIdx i) :=
        List.perm_insertIdx _ _ (by omega)
      have h2 : ((cs.eraseIdx i).insertIdx i (cs.get ⟨i, hlt⟩)).Perm
          (cs.get ⟨i, hlt⟩ :: cs.eraseIdx i) := by
        refine List.perm_insertIdx _ _ ?_
        rw [List.length_eraseIdx_of_lt hlt]
        omega
      have h3 : cs.Perm (cs.get ⟨i, hlt⟩ :: cs.eraseIdx i) := by
        conv_lhs => rw [← insertIdx_getElem_eraseIdx cs i hlt]
        exact h2
      exact h1.trans h3.symm

/-- Inserting a child at any position is, up to permutation, a cons. -/
theorem insertChildAt_perm (pos : Int) (c : BNode) (cs : List BNode) :
    (insertChildAt pos c cs).Perm (c :: cs) := by
  rw [insertChildAt]
  split
  · rename_i hgood
    exact List.perm_insertIdx _ _ hgood.2
  · exact @List.perm_append_comm _ cs [c]

@[simp] theorem nsize_mk (i : Nat) (fo : Bool) (n u : String) (cs : List BNode) :
    nsize (BNode.mk i fo n u cs) = 1 + nsizeL cs := by rw [nsize]

@[simp] theorem nsizeL_nil : nsizeL [] = 0 := by rw [nsizeL]

@[simp] theorem nsizeL_cons (c : BNode) (cs : List BNode) :
    nsizeL (c :: cs) = nsize c + nsizeL cs := by rw [nsizeL]

theorem nsizeL_append (a b : List BNode) : nsizeL (a ++ b) = nsizeL a + nsizeL b := by
  induction a with
  | nil => simp
  | cons c cs ih => simp [ih]; omega

/-- The forest of children of a node is smaller than the node's subtree. -/
theorem nsizeL_children_lt (c : BNode) : nsizeL c.children < nsize c := by
  cases c with
  | mk i fo n u cs =>
    rw [nsize_mk]
    simp only [BNode.children_mk]
    omega

/-- Equation of bfsFind on the empty queue. -/
theorem bfsFind_nil (fid : Nat) : bfsFind fid [] = none := by
  rw [bfsFind.eq_def]

/-- Equation of bfsFind on a dequeued front node. -/
theorem bfsFind_cons (fid : Nat) (q : BNode) (qs : List BNode) :
    bfsFind fid (q :: qs) =
      if q.isFolder = true ∧ q.id = fid then some q else bfsFind fid (qs ++ q.children) := by
  rw [bfsFind.eq_def]

/-- What the BFS returns is a folder of the searched id drawn from the
queued forests. -/
theorem bfsFind_sound (fid : Nat) (queue : List BNode) (n : BNode)
    (h : bfsFind fid queue = some n) :
    n.isFolder = true ∧ n.id = fid ∧ n ∈ allNodesL queue := by
  suffices H : ∀ k queue2 n2, nsizeL queue2 = k → bfsFind fid queue2 = some n2 →
      n2.isFolder = true ∧ n2.id = fid ∧ n2 ∈ allNodesL queue2 by
    exact H (nsizeL queue) queue n rfl h
  intro k
  induction k using Nat.strong_induction_on with
  | _ k ih =>
    intro queue2 n2 hk hfind
    cases queue2 with
    | nil =>
      rw [bfsFind_nil] at hfind
      cases hfind
    | cons q qs =>
      rw [bfsFind_cons] at hfind
      split at hfind
      · rename_i hcond
        cases hfind
        refine ⟨hcond.1, hcond.2, ?_⟩
        rw [allNodesL_cons]
        exact List.mem_append.mpr (Or.inl (allNodes_self_mem _))
      · have hlt : nsizeL (qs ++ q.children) < k := by
          subst hk
          rw [nsizeL_append, nsizeL_cons]
          cases q with
          | mk i fo nm u cs =>
            rw [nsize_mk]
            simp only [BNode.children_mk]
            omega
        obtain ⟨h1, h2, h3⟩ := ih _ hlt (qs ++ q.children) n2 rfl hfind
        refine ⟨h1, h2, ?_⟩
        rw [allNodesL_append] at h3
        rw [allNodesL_cons]
        rcases List.mem_append.mp h3 with hin | hin
        · exact List.mem_append.mpr (Or.inr hin)
        · refine List.mem_append.mpr (Or.inl ?_)
          cases q with
          | mk i fo nm u cs =>
            simp only [BNode.children_mk] at hin
            simp [hin]

/-- A folder of the searched id anywhere in the queued forests is found by
the BFS. -/
theorem bfsFind_complete (fid : Nat) (queue : List BNode)
    (h : ∃ n ∈ allNodesL queue, n.isFolder = true ∧ n.id = fid) :
    (bfsFind fid queue).isSome := by
  suffices H : ∀ k queue2, nsizeL queue2 = k →
      (∃ n ∈ allNodesL queue2, n.isFolder = true ∧ n.id = fid) →
      (bfsFind fid queue2).isSome by
    exact H (nsizeL queue) queue rfl h
  intro k
  induction k using Nat.strong_induction_on with
  | _ k ih =>
    intro queue2 hk hex
    cases queue2 with
    | nil =>
      obtain ⟨n, hn, -⟩ := hex
      simp at hn
    | cons q qs =>
      rw [bfsFind_cons]
      split
      · simp
      · rename_i hcond
        have hlt : nsizeL (qs ++ q.children) < k := by
          subst hk
          rw [nsizeL_append, nsizeL_cons]
          cases q with
          | mk i fo nm u cs =>
            rw [nsize_mk]
            simp only [BNode.children_mk]
            omega
        refine ih _ hlt (qs ++ q.children) rfl ?_
        obtain ⟨n, hn, hfo, hid⟩ := hex
        rw [allNodesL_cons] at hn
        rcases List.mem_append.mp hn with hin | hin
        · cases q with
          | mk i fo nm u cs =>
            rw [allNodes_mk] at hin
            rcases List.mem_cons.mp hin with rfl | hin
            · exact absurd ⟨hfo, hid⟩ hcond
            · refine ⟨n, ?_, hfo, hid⟩
              rw [allNodesL_append]
              refine List.mem_append.mpr (Or.inr ?_)
              simpa using hin
        · refine ⟨n, ?_, hfo, hid⟩
          rw [allNodesL_append]
          exact List.mem_append.mpr (Or.inl hin)

/-- Folder ids are tree ids. -/
theorem folderIds_sub (t : BNode) (x : Nat) (h : x ∈ folderIds t) : x ∈ subtreeIds t := by
  rw [folderIds] at h
  obtain ⟨n, hn, hid⟩ := List.mem_map.mp h
  have hmem := List.mem_of_mem_filter hn
  rw [subtreeIds_eq_map]
  exact hid ▸ List.mem_map_of_mem BNode.id hmem

/-! ## Theorems for the bookmark manager -/

/-- Claim C5: removing a folder removes it and all its descendants from the
in-memory tree and from durable storage, and removes nothing else: the
remaining ids are exactly the original ids outside the folder's subtree (so
no node whose ancestor chain passed through the folder survives), and the
remaining rows are exactly the original rows outside the subtree. -/
theorem removeFolder_no_orphans (st : BookmarkStore) (fid : Nat) (sub : BNode)
    (st2 : BookmarkStore)
    (hnodup : (subtreeIds st.tree).Nodup)
    (hfind : findNode fid st.tree = some sub)
    (hrm : removeFolder st fid = some st2) :
    subtreeIds st2.tree =
      (subtreeIds st.tree).filter (fun x => decide (x ∉ subtreeIds sub)) ∧
    (∀ x ∈ subtreeIds sub, x ∉ subtreeIds st2.tree) ∧
    st2.storage = st.storage.filter (fun r => decide (r.id ∉ subtreeIds sub)) ∧
    (∀ r ∈ st2.storage, r.id ∉ subtreeIds sub) := by
  rw [removeFolder] at hrm
  split at hrm
  · cases hrm
  · rename_i hne
    split at hrm
    · cases hrm
    · rename_i n heq
      rw [hfind] at heq
      cases heq
      split at hrm
      · simp only [Option.some.injEq] at hrm
        subst hrm
        have htreene : st.tree.id ≠ fid := fun h => hne h.symm
        have hids := removeNode_ids_filter fid sub st.tree hnodup htreene hfind
        refine ⟨hids, ?_, rfl, ?_⟩
        · intro x hx hx2
          rw [hids] at hx2
          have := (List.mem_filter.mp hx2).2
          simp only [decide_eq_true_eq] at this
          exact this hx
        · intro r hr
          have := (List.mem_filter.mp hr).2
          simpa using this
      · cases hrm

/-- Claim C6: a folder just created by addFolder is found by findFolder under
its fresh id, and findFolder returns none for every id absent from the
tree. -/
theorem findFolder_addFolder :
    (∀ (st : BookmarkStore) (pid : Nat) (nm : String) (nid : Nat)
        (st2 : BookmarkStore) (F : BNode),
      (subtreeIds st.tree).Nodup →
      addFolder st pid nm nid = some (st2, F) →
      findFolder st2.tree nid = some F) ∧
    (∀ (t : BNode) (fid : Nat), fid ∉ subtreeIds t → findFolder t fid = none) := by
  constructor
  · intro st pid nm nid st2 F hnodup hadd
    rw [addFolder] at hadd
    split at hadd
    · rename_i hguard
      obtain ⟨hpidf, hfresh⟩ := hguard
      simp only [Option.some.injEq, Prod.mk.injEq] at hadd
      obtain ⟨hst2, hF⟩ := hadd
      subst hst2
      subst hF
      have hpid : pid ∈ subtreeIds st.tree := folderIds_sub _ _ hpidf
      have hFin : BNode.mk nid true nm "" [] ∈
          allNodes (updateChildren pid
            (fun cs => cs ++ [BNode.mk nid true nm "" []]) st.tree) := by
        refine updateChildren_mem pid _ _ (fun cs => ?_) st.tree hpid
        rw [allNodesL_append]
        refine List.mem_append.mpr (Or.inr ?_)
        simp [allNodes_self_mem]
      have hperm : (subtreeIds (updateChildren pid
          (fun cs => cs ++ [BNode.mk nid true nm "" []]) st.tree)).Perm
          ([nid] ++ subtreeIds st.tree) := by
        refine updateChildren_ids_add pid _ [nid] (fun cs => ?_) st.tree hnodup hpid
        rw [subtreeIdsL_append]
        have hFids : subtreeIdsL [BNode.mk nid true nm "" []] = [nid] := by simp
        rw [hFids]
        exact @List.perm_append_comm _ (subtreeIdsL cs) [nid]
      have hnd2 : (subtreeIds (updateChildren pid
          (fun cs => cs ++ [BNode.mk nid true nm "" []]) st.tree)).Nodup := by
        refine hperm.symm.nodup ?_
        have hform : ([nid] ++ subtreeIds st.tree) = nid :: subtreeIds st.tree := rfl
        rw [hform, List.nodup_cons]
        exact ⟨hfresh, hnodup⟩
      have hsome := bfsFind_complete nid
        [updateChildren pid (fun cs => cs ++ [BNode.mk nid true nm "" []]) st.tree]
        ⟨BNode.mk nid true nm "" [], by simpa using hFin, rfl, rfl⟩
      obtain ⟨pr, hpr⟩ := Option.isSome_iff_exists.mp hsome
      obtain ⟨hprfo, hprid, hprmem⟩ := bfsFind_sound nid _ pr hpr
      have hprmem2 : pr ∈ allNodes (updateChildren pid
          (fun cs => cs ++ [BNode.mk nid true nm "" []]) st.tree) := by
        simpa using hprmem
      have hpreq : pr = BNode.mk nid true nm "" [] :=
        nodup_node_inj _ hnd2 pr _ hprmem2 hFin (by rw [hprid]; rfl)
      rw [findFolder, hpr, hpreq]
    · cases hadd
  · intro t fid hab
    rw [findFolder]
    rcases hn : bfsFind fid [t] with _ | n
    · rfl
    · obtain ⟨-, hnid, hnmem⟩ := bfsFind_sound fid [t] n hn
      exfalso
      have hmem : n ∈ allNodes t := by simpa using hnmem
      apply hab
      rw [subtreeIds_eq_map]
      exact hnid ▸ List.mem_map_of_mem BNode.id hmem

/-- Claim C8: every mutating operation that returns success has already
reflected its change in durable storage at the moment it returns: starting
from a store whose storage mirrors the tree, the store returned by addFolder,
addBookmark, removeBookmark, removeFolder or setBookmarkPosition mirrors its
tree again, with no deferred step; the inherited save hook is the identity. -/
theorem mutations_write_through (st : BookmarkStore)
    (hnodup : (subtreeIds st.tree).Nodup) (hwf : WellFormed st.tree)
    (hwt : WriteThrough st) :
    (∀ pid nm nid st2 F, addFolder st pid nm nid = some (st2, F) → WriteThrough st2) ∧
    (∀ pid nm burl bid pos st2, addBookmark st pid nm burl bid pos = some st2 →
      WriteThrough st2) ∧
    (∀ bid st2, removeBookmark st bid = some st2 → WriteThrough st2) ∧
    (∀ fid st2, removeFolder st fid = some st2 → WriteThrough st2) ∧
    (∀ itemId pid pos, WriteThrough (setBookmarkPosition st itemId pid pos)) ∧
    BookmarkManager.save st = st := by
  refine ⟨?_, ?_, ?_, ?_, ?_, rfl⟩
  · intro pid nm nid st2 F hadd
    rw [addFolder] at hadd
    split at hadd
    · rename_i hguard
      simp only [Option.some.injEq, Prod.mk.injEq] at hadd
      obtain ⟨hst2, -⟩ := hadd
      subst hst2
      have hpid : pid ∈ subtreeIds st.tree := folderIds_sub _ _ hguard.1
      have hrows : (nodeRows (updateChildren pid
          (fun cs => cs ++ [BNode.mk nid true nm "" []]) st.tree)).Perm
          ([{ id := nid, parentId := pid, isFolder := true, name := nm, url := "" }] ++
            nodeRows st.tree) := by
        refine updateChildren_rows_add pid _ _ (fun cs => ?_) st.tree hnodup hpid
        rw [childRows_append]
        have hF : childRows pid [BNode.mk nid true nm "" []] =
            [{ id := nid, parentId := pid, isFolder := true, name := nm, url := "" }] := by
          simp [rowOf]
        rw [hF]
        exact @List.perm_append_comm _ (childRows pid cs) _
      rw [WriteThrough]
      refine List.Perm.trans ?_ hrows.symm
      refine List.Perm.trans (hwt.append_right _) ?_
      exact @List.perm_append_comm _ (nodeRows st.tree) _
    · cases hadd
  · intro pid nm burl bid pos st2 hadd
    rw [addBookmark] at hadd
    split at hadd
    · rename_i hguard
      simp only [Option.some.injEq] at hadd
      subst hadd
      have hpid : pid ∈ subtreeIds st.tree := folderIds_sub _ _ hguard.1
      have hrows : (nodeRows (updateChildren pid
          (insertChildAt pos (BNode.mk bid false nm burl [])) st.tree)).Perm
          ([{ id := bid, parentId := pid, isFolder := false, name := nm, url := burl }] ++
            nodeRows st.tree) := by
        refine updateChildren_rows_add pid _ _ (fun cs => ?_) st.tree hnodup hpid
        refine List.Perm.trans
          (childRows_perm pid _ _ (insertChildAt_perm pos (BNode.mk bid false nm burl []) cs))
          ?_
        simp [rowOf]
      rw [WriteThrough]
      refine List.Perm.trans ?_ hrows.symm
      refine List.Perm.trans (hwt.append_right _) ?_
      exact @List.perm_append_comm _ (nodeRows st.tree) _
    · cases hadd
  · intro bid st2 hrem
    rw [removeBookmark] at hrem
    split at hrem
    · cases hrem
    · rename_i hne
      split at hrem
      · cases hrem
      · rename_i n heq
        split at hrem
        · cases hrem
        · rename_i hnotf
          simp only [Option.some.injEq] at hrem
          subst hrem
          obtain ⟨hnid, hnmem⟩ := findNode_sound bid st.tree n heq
          have htreene : st.tree.id ≠ bid := fun h => hne h.symm
          have hleaf : n.children = [] :=
            hwf n hnmem (by revert hnotf; cases n.isFolder <;> simp)
          have hidsn : subtreeIds n = [bid] := by
            cases n with
            | mk i fo nmn un csn =>
              simp only [BNode.children_mk] at hleaf
              subst hleaf
              simp only [BNode.id_mk] at hnid
              simp [hnid]
          have hrows := removeNode_rows_filter bid n st.tree hnodup htreene heq
          rw [WriteThrough]
          rw [hrows]
          have hsame : st.storage.filter (fun r => r.id ≠ bid) =
              st.storage.filter (fun r => decide (r.id ∉ subtreeIds n)) := by
            refine List.filter_congr ?_
            intro r _
            rw [hidsn]
            simp
          rw [hsame]
          exact hwt.filter _
  · intro fid st2 hrm
    rw [removeFolder] at hrm
    split at hrm
    · cases hrm
    · rename_i hne
      split at hrm
      · cases hrm
      · rename_i n heq
        split at hrm
        · simp only [Option.some.injEq] at hrm
          subst hrm
          have htreene : st.tree.id ≠ fid := fun h => hne h.symm
          have hrows := removeNode_rows_filter fid n st.tree hnodup htreene heq
          rw [WriteThrough]
          rw [hrows]
          exact hwt.filter _
        · cases hrm
  · intro itemId pid pos
    rw [WriteThrough, setBookmarkPosition]
    refine List.Perm.trans hwt ?_
    refine (updateChildren_rows_perm pid _ (fun cs => ?_) st.tree).symm
    exact childRows_perm pid _ _ (moveChild_perm itemId pos cs)

/-- Claim C9: setBookmarkPosition applied at the item's current position
within its parent leaves the store, its child ordering, and the persisted
state unchanged. -/
theorem setBookmarkPosition_self (st : BookmarkStore) (pid itemId i : Nat) (P : BNode)
    (hnodup : (subtreeIds st.tree).Nodup)
    (hmem : P ∈ allNodes st.tree) (hpid : P.id = pid)
    (hidx : P.children.findIdx? (fun c => decide (c.id = itemId)) = some i) :
    setBookmarkPosition st itemId pid i = st := by
  rw [setBookmarkPosition]
  have htree : updateChildren pid (moveChild itemId i) st.tree = st.tree := by
    refine updateChildren_eq_self pid _ st.tree ?_
    intro n hn hid
    have hnP : n = P := nodup_node_inj st.tree hnodup n P hn hmem (by rw [hid, hpid])
    subst hnP
    exact moveChild_self itemId i n.children hidx
  rw [htree]

/-- Witness for claim C5 at the sample store: removing the News folder leaves
exactly the ids outside its subtree. -/
theorem removeFolder_no_orphans_witness :
    subtreeIds (BNode.mk 0 true "Bookmarks" "" [BNode.mk 3 false "x" "y" []]) =
      (subtreeIds sampleStore.tree).filter
        (fun x => decide (x ∉ subtreeIds (BNode.mk 1 true "News" "" [BNode.mk 2 false "b" "u" []]))) :=
  (removeFolder_no_orphans sampleStore 1
    (BNode.mk 1 true "News" "" [BNode.mk 2 false "b" "u" []])
    { tree := BNode.mk 0 true "Bookmarks" "" [BNode.mk 3 false "x" "y" []],
      storage := [{ id := 3, parentId := 0, isFolder := false, name := "x", url := "y" }] }
    (by decide) (by rfl) (by rfl)).1

/-- Witness for claim C6 at the sample store: a folder added with fresh id 7
under the News folder is found again by findFolder. -/
theorem findFolder_addFolder_witness :
    findFolder
      (BNode.mk 0 true "Bookmarks" ""
        [BNode.mk 1 true "News" ""
          [BNode.mk 2 false "b" "u" [], BNode.mk 7 true "sub" "" []],
         BNode.mk 3 false "x" "y" []]) 7 =
      some (BNode.mk 7 true "sub" "" []) :=
  findFolder_addFolder.1 sampleStore 1 "sub" 7
    { tree := BNode.mk 0 true "Bookmarks" ""
        [BNode.mk 1 true "News" ""
          [BNode.mk 2 false "b" "u" [], BNode.mk 7 true "sub" "" []],
         BNode.mk 3 false "x" "y" []],
      storage := nodeRows sampleTree ++
        [{ id := 7, parentId := 1, isFolder := true, name := "sub", url := "" }] }
    (BNode.mk 7 true "sub" "" [])
    (by decide) (by rfl)

/-- Witness for claim C8 at the sample store: a reorder of the root's
children leaves storage mirroring the tree. -/
theorem mutations_write_through_witness :
    WriteThrough (setBookmarkPosition sampleStore 1 0 1) :=
  (mutations_write_through sampleStore (by decide)
    (by simp [WellFormed, sampleStore, sampleTree])
    (List.Perm.refl _)).2.2.2.2.1 1 0 1

/-- Witness for claim C9 at the sample store: moving the News folder to its
current position 0 under the root changes nothing. -/
theorem setBookmarkPosition_self_witness :
    setBookmarkPosition sampleStore 1 0 0 = sampleStore :=
  setBookmarkPosition_self sampleStore 0 1 0 sampleTree
    (by decide) (allNodes_self_mem sampleTree) (by rfl) (by rfl)

end ViperBrowser
